import Mathlib

/-!
Verification of the PFS container decoder and extraction engine
(PFSExtractor-RS: src/parser.rs and src/main.rs).

Bytes are modelled as `List Nat` (each element a byte value `< 256` when the
buffer comes from a real file).  A nom parser `&[u8] -> IResult<&[u8], T>`
becomes `Bytes → Option (Bytes × T)`: `none` covers both nom `Error` and
`Incomplete` outcomes, which the program treats identically (every `match`
on a parser result distinguishes only `Ok` from everything else).
-/

abbrev Bytes := List Nat

/-- nom `le_u8`: consume one byte. -/
def le_u8 : Bytes → Option (Bytes × Nat)
  | [] => none
  | b :: r => some (r, b)

/-- nom `le_u16`: consume two bytes, little endian. -/
def le_u16 : Bytes → Option (Bytes × Nat)
  | b0 :: b1 :: r => some (r, b0 + 256 * b1)
  | _ => none

/-- nom `le_u32`: consume four bytes, little endian. -/
def le_u32 : Bytes → Option (Bytes × Nat)
  | b0 :: b1 :: b2 :: b3 :: r =>
    some (r, b0 + 256 * b1 + 65536 * b2 + 16777216 * b3)
  | _ => none

/-- nom `le_u64`: consume eight bytes, little endian. -/
def le_u64 : Bytes → Option (Bytes × Nat)
  | b0 :: b1 :: b2 :: b3 :: b4 :: b5 :: b6 :: b7 :: r =>
    some (r, b0 + 256 * b1 + 65536 * b2 + 16777216 * b3 +
      4294967296 * b4 + 1099511627776 * b5 + 281474976710656 * b6 +
      72057594037927936 * b7)
  | _ => none

/-- nom `take!(n)`: consume exactly `n` bytes and return them. -/
def take_bytes (n : Nat) (i : Bytes) : Option (Bytes × Bytes) :=
  if n ≤ i.length then some (i.drop n, i.take n) else none

/-- nom `tag!(t)`: match the literal byte sequence `t`. -/
def tag_bytes (t : Bytes) (i : Bytes) : Option (Bytes × Bytes) :=
  if t.isPrefixOf i then some (i.drop t.length, t) else none

/-- Sequencing of nom's `do_parse!`: run the next step on a successful
parse, propagate failure. -/
def pbind {α β : Type} (o : Option (Bytes × α))
    (f : Bytes → α → Option (Bytes × β)) : Option (Bytes × β) :=
  match o with
  | none => none
  | some (i, a) => f i a

@[simp] theorem pbind_none {α β : Type} (f : Bytes → α → Option (Bytes × β)) :
    pbind none f = none := rfl

@[simp] theorem pbind_some {α β : Type} (i : Bytes) (a : α)
    (f : Bytes → α → Option (Bytes × β)) : pbind (some (i, a)) f = f i a := rfl

theorem pbind_eq_some {α β : Type} {o : Option (Bytes × α)}
    {f : Bytes → α → Option (Bytes × β)} {b : Bytes × β}
    (h : pbind o f = some b) : ∃ i a, o = some (i, a) ∧ f i a = some b := by
  cases o with
  | none => simp [pbind] at h
  | some p =>
    obtain ⟨i, a⟩ := p
    exact ⟨i, a, rfl, h⟩

/-- nom `count!`/`count_fixed!`: apply a parser exactly `n` times. -/
def count_p {α : Type} (p : Bytes → Option (Bytes × α)) :
    Nat → Bytes → Option (Bytes × List α)
  | 0, i => some (i, [])
  | n + 1, i =>
    pbind (p i) fun r a =>
    pbind (count_p p n r) fun r2 items =>
    some (r2, a :: items)

/-- nom `cond_with_error!(c, p)`: run `p` when `c` holds, else yield `none`
without consuming. -/
def cond_with_error {α : Type} (c : Prop) [Decidable c]
    (p : Bytes → Option (Bytes × α)) (i : Bytes) : Option (Bytes × Option α) :=
  if c then pbind (p i) fun r a => some (r, some a)
  else some (i, none)

/-- The header magic `"PFS.HDR."`. -/
def hdrMagic : Bytes := [0x50, 0x46, 0x53, 0x2E, 0x48, 0x44, 0x52, 0x2E]

/-- The footer magic `"PFS.FTR."`. -/
def ftrMagic : Bytes := [0x50, 0x46, 0x53, 0x2E, 0x46, 0x54, 0x52, 0x2E]

/-- The compressed-section magic `AA EE AA 76 1B EC BB 20 F1 E6 51`. -/
def compMagic : Bytes :=
  [0xAA, 0xEE, 0xAA, 0x76, 0x1B, 0xEC, 0xBB, 0x20, 0xF1, 0xE6, 0x51]

structure Guid where
  data1 : Nat
  data2 : Nat
  data3 : Nat
  data4 : Bytes
deriving DecidableEq

structure PfsHeader where
  header_version : Nat
  data_size : Nat
deriving DecidableEq

structure PfsFooter where
  checksum : Nat
  data_size : Nat
deriving DecidableEq

structure PfsSection where
  name : String
  guid : Guid
  header_version : Nat
  version_type : Bytes
  version : List Nat
  reserved : Nat
  data_size : Nat
  data_sig_size : Nat
  meta_size : Nat
  meta_sig_size : Nat
  unknown : Bytes
  data : Option Bytes
  data_sig : Option Bytes
  meta : Option Bytes
  meta_sig : Option Bytes
deriving DecidableEq

structure PfsFile where
  header : PfsHeader
  sections : List PfsSection
  footer : PfsFooter
deriving DecidableEq

structure PfsCompressedSection where
  size : Nat
  data : Bytes
deriving DecidableEq

structure PfsChunk where
  order_number : Nat
  data : Bytes
deriving DecidableEq

structure PfsInfoSection where
  header_version : Nat
  guid : Guid
  version : List Nat
  version_type : Bytes
  name : String
deriving DecidableEq

/-- `parser.rs pfs_header`: magic, then version and data size. -/
def pfs_header (input : Bytes) : Option (Bytes × PfsHeader) :=
  pbind (tag_bytes hdrMagic input) fun i _ =>
  pbind (le_u32 i) fun i v =>
  pbind (le_u32 i) fun i s =>
  some (i, { header_version := v, data_size := s })

/-- `parser.rs pfs_footer`: data size, checksum, then magic. -/
def pfs_footer (input : Bytes) : Option (Bytes × PfsFooter) :=
  pbind (le_u32 input) fun i s =>
  pbind (le_u32 i) fun i c =>
  pbind (tag_bytes ftrMagic i) fun i _ =>
  some (i, { checksum := c, data_size := s })

/-- `parser.rs guid`. -/
def guid (input : Bytes) : Option (Bytes × Guid) :=
  pbind (le_u32 input) fun i d1 =>
  pbind (le_u16 i) fun i d2 =>
  pbind (le_u16 i) fun i d3 =>
  pbind (count_p le_u8 8 i) fun i d4 =>
  some (i, { data1 := d1, data2 := d2, data3 := d3, data4 := d4 })

/-- `parser.rs pfs_section`: fixed fields then the four conditional blobs. -/
def pfs_section (input : Bytes) : Option (Bytes × PfsSection) :=
  pbind (guid input) fun i g =>
  pbind (le_u32 i) fun i hv =>
  pbind (count_p le_u8 4 i) fun i vt =>
  pbind (count_p le_u16 4 i) fun i v =>
  pbind (le_u64 i) fun i rsv =>
  pbind (le_u32 i) fun i ds =>
  pbind (le_u32 i) fun i dss =>
  pbind (le_u32 i) fun i ms =>
  pbind (le_u32 i) fun i mss =>
  pbind (count_p le_u8 16 i) fun i u =>
  pbind (cond_with_error (ds > 0) (take_bytes ds) i) fun i dp =>
  pbind (cond_with_error (dss > 0) (take_bytes dss) i) fun i dsp =>
  pbind (cond_with_error (ms > 0) (take_bytes ms) i) fun i mp =>
  pbind (cond_with_error (mss > 0) (take_bytes mss) i) fun i msp =>
  some (i,
    { name := ""
      guid := g
      header_version := hv
      version_type := vt
      version := v
      reserved := rsv
      data_size := ds
      data_sig_size := dss
      meta_size := ms
      meta_sig_size := mss
      unknown := u
      data := dp
      data_sig := dsp
      meta := mp
      meta_sig := msp })

/-- nom `many_till!(pfs_section, pfs_footer)`: at each position first try the
footer, stop on a match; otherwise parse one section and loop.  Fuelled for
termination; a successful `pfs_section` consumes at least 72 bytes, so fuel
equal to the input length never runs out. -/
def pfs_sections_till_footer :
    Nat → Bytes → Option (Bytes × (List PfsSection × PfsFooter))
  | 0, input =>
    match pfs_footer input with
    | some (r, f) => some (r, ([], f))
    | none => none
  | fuel + 1, input =>
    match pfs_footer input with
    | some (r, f) => some (r, ([], f))
    | none =>
      match pfs_section input with
      | none => none
      | some (r, s) =>
        match pfs_sections_till_footer fuel r with
        | none => none
        | some (r2, sf) => some (r2, (s :: sf.1, sf.2))

/-- `parser.rs pfs_file`: header, then sections until the footer. -/
def pfs_file (input : Bytes) : Option (Bytes × PfsFile) :=
  pbind (pfs_header input) fun i h =>
  pbind (pfs_sections_till_footer i.length i) fun i2 sf =>
  some (i2, { header := h, sections := sf.1, footer := sf.2 })

/-- `parser.rs pfs_compressed_section`. -/
def pfs_compressed_section (input : Bytes) :
    Option (Bytes × PfsCompressedSection) :=
  pbind (le_u32 input) fun i s =>
  pbind (tag_bytes compMagic i) fun i _ =>
  pbind (take_bytes 1 i) fun i _ =>
  pbind (take_bytes s i) fun i d =>
  pbind (take_bytes 16 i) fun i _ =>
  some (i, { size := s, data := d })

/-- `parser.rs pfs_chunk`: skip 0x3E bytes, order number, skip to offset
0x248, the rest is the payload (nom `rest` consumes everything). -/
def pfs_chunk (input : Bytes) : Option (Bytes × PfsChunk) :=
  pbind (take_bytes 0x3E input) fun i _ =>
  pbind (le_u16 i) fun i onum =>
  pbind (take_bytes (0x248 - 0x40) i) fun i _ =>
  some ([], { order_number := onum, data := i })

/-- Model of Rust std `String::from_utf16_lossy` on a list of u16 units:
valid pairs of surrogates combine, anything unpaired becomes U+FFFD. -/
def utf16Chars : List Nat → List Char
  | [] => []
  | [u] =>
    if u < 0xD800 ∨ 0xE000 ≤ u then [Char.ofNat u] else [Char.ofNat 0xFFFD]
  | u :: v :: rest =>
    if u < 0xD800 ∨ 0xE000 ≤ u then Char.ofNat u :: utf16Chars (v :: rest)
    else if u < 0xDC00 ∧ 0xDC00 ≤ v ∧ v < 0xE000 then
      Char.ofNat (0x10000 + (u - 0xD800) * 1024 + (v - 0xDC00)) ::
        utf16Chars rest
    else Char.ofNat 0xFFFD :: utf16Chars (v :: rest)

/-- Rust `String::from_utf16_lossy`. -/
def from_utf16_lossy (units : List Nat) : String := String.mk (utf16Chars units)

/-- `parser.rs pfs_info_section`: one name record of the information
section's payload. -/
def pfs_info_section (input : Bytes) : Option (Bytes × PfsInfoSection) :=
  pbind (le_u32 input) fun i hv =>
  pbind (guid i) fun i g =>
  pbind (count_p le_u16 4 i) fun i v =>
  pbind (count_p le_u8 4 i) fun i vt =>
  pbind (le_u16 i) fun i l =>
  pbind (count_p le_u16 l i) fun i n =>
  pbind (tag_bytes [0, 0] i) fun i _ =>
  some (i,
    { header_version := hv
      guid := g
      version := v
      version_type := vt
      name := from_utf16_lossy n })

/-- nom `many0!(complete!(pfs_info_section))`: collect records until the
first failure; a record that succeeds without consuming input makes `many0`
fail (its infinite-loop protection).  Fuelled; a successful record consumes
at least 36 bytes, so fuel equal to the input length never runs out. -/
def pfs_info_go : Nat → Bytes → Option (Bytes × List PfsInfoSection)
  | 0, input =>
    match pfs_info_section input with
    | none => some (input, [])
    | some _ => none
  | fuel + 1, input =>
    match pfs_info_section input with
    | none => some (input, [])
    | some (r, s) =>
      if r.length < input.length then
        match pfs_info_go fuel r with
        | none => none
        | some (r2, ss) => some (r2, s :: ss)
      else none

/-- `parser.rs pfs_info`. -/
def pfs_info (input : Bytes) : Option (Bytes × List PfsInfoSection) :=
  pfs_info_go input.length input

/-!  Model of `main.rs pfs_extract`.  File writes become a list of artifacts
(file name, bytes); `Option` is the outcome, with `none` marking a panic
(`unwrap`/`expect` failure), which aborts the run. -/

abbrev Artifact := String × Bytes

/-- Upper-case hex digit, as Rust's `{:X}` format. -/
def hexDigitChar (n : Nat) : Char :=
  if n < 10 then Char.ofNat (48 + n) else Char.ofNat (55 + n)

/-- Hex digits of `n`, most significant first (fuelled, `fuel ≥ n` suffices). -/
def hexCore : Nat → Nat → List Char
  | 0, _ => []
  | fuel + 1, n =>
    if n = 0 then [] else hexCore fuel (n / 16) ++ [hexDigitChar (n % 16)]

/-- Rust `format!("{:X}", n)`. -/
def toHexUpper (n : Nat) : String :=
  if n = 0 then "0" else String.mk (hexCore n n)

/-- The version loop of `main.rs` (lines 141-153): scan tag/number pairs,
`0x41` appends hex, `0x4E` appends decimal, `0x20`/`0x00` stop keeping the
accumulator, any other tag clears the accumulator and stops. -/
def versionScan : List (Nat × Nat) → String → String
  | [], acc => acc
  | (t, x) :: rest, acc =>
    if t = 0x41 then versionScan rest (acc ++ toHexUpper x ++ ".")
    else if t = 0x4E then versionScan rest (acc ++ Nat.repr x ++ ".")
    else if t = 0x20 ∨ t = 0x00 then acc
    else ""

/-- The version string of a section: the scan result, or `"0."` when the
scan produced nothing (`main.rs` lines 154-159). -/
def versionString (vt : Bytes) (v : List Nat) : String :=
  let s := versionScan (vt.zip v) ""
  if s.length = 0 then "0." else s

/-- `main.rs` lines 167-172: `section_{i}` for an unresolved name, else
`{i}_{name}` with spaces replaced by underscores. -/
def sectionFileName (i : Nat) (name : String) : String :=
  if name.isEmpty then "section_" ++ Nat.repr i
  else Nat.repr i ++ "_" ++ name.replace " " "_"

/-- Rust `usize` subtraction as compiled in release mode: wrapping. -/
def usizeSub (a b : Nat) : Nat :=
  (a + 18446744073709551616 - b % 18446744073709551616) % 18446744073709551616

/-- The name-assignment loop of `main.rs` (lines 103-112): names are given,
in order, to the leading sections, one each, until either list runs out. -/
def assignNames : List PfsSection → List String → List PfsSection
  | ss, [] => ss
  | [], _ => []
  | s :: ss, n :: ns => { s with name := n } :: assignNames ss ns

/-- Rename the section at index `i` (`other_sections[i].name = ...`);
the caller's index is always in bounds. -/
def renameAt : List PfsSection → Nat → String → List PfsSection
  | [], _, _ => []
  | s :: rest, 0, n => { s with name := n } :: rest
  | s :: rest, i + 1, n => s :: renameAt rest i n

/-- The metadata-resolution block of `main.rs` (lines 90-120).  The final
value of the loop counter `i` is `min names.length others.length`.  `none`
models the `split_last_mut().unwrap()` panic on an empty section list and
the `info_section.data.unwrap()` panic. -/
def resolveNames (sections : List PfsSection) : Option (List PfsSection) :=
  match sections.getLast? with
  | none => none
  | some info =>
    let others := sections.dropLast
    if info.data_size ≠ 0 then
      match info.data with
      | none => none
      | some d =>
        match pfs_info d with
        | none => some (others ++ [info])
        | some (_, records) =>
          let names := records.map (fun r => r.name)
          let info2 := { info with name := "Section Info" }
          let assigned := assignNames others names
          let cnt := min names.length others.length
          let final :=
            if cnt = usizeSub others.length 1 then
              renameAt assigned cnt "Model Properties"
            else assigned
          some (final ++ [info2])
    else some (others ++ [info])

/-- Outcome of the chunk-collection loop (`main.rs` lines 223-238). -/
inductive ChunkResult where
  | panic
  | cleared
  | ok (chunks : List PfsChunk)
deriving DecidableEq

/-- The chunk-collection loop of `main.rs` (lines 223-238): for each section
of the nested container, unwrap its data and parse it as a chunk; any parse
failure clears every chunk collected so far and stops.  The guard
`if section.data_size == 0 { continue; }` tests the *outer* section (always
nonzero here), so a nested section with no data reaches the `unwrap` and
panics. -/
def collectChunks (outer_data_size : Nat) : List PfsSection → ChunkResult
  | [] => .ok []
  | s :: rest =>
    if outer_data_size = 0 then collectChunks outer_data_size rest
    else
      match s.data with
      | none => .panic
      | some d =>
        match pfs_chunk d with
        | none => .cleared
        | some (_, ch) =>
          match collectChunks outer_data_size rest with
          | .panic => .panic
          | .cleared => .cleared
          | .ok chs => .ok (ch :: chs)

/-- Chunk ordering used by `chunks.sort()` (`Ord for PfsChunk` compares
order numbers). -/
def chunkLe (a b : PfsChunk) : Prop := a.order_number ≤ b.order_number

instance : DecidableRel chunkLe := fun a b => Nat.decLe a.order_number b.order_number

/-- `chunks.sort()`: Rust's slice sort is stable and compares chunks by
order number; modelled by the (stable) insertion sort on `chunkLe`. -/
def sortChunks (chunks : List PfsChunk) : List PfsChunk :=
  List.insertionSort chunkLe chunks

/-- `main.rs` lines 241-247: concatenate the payloads of the sorted chunks. -/
def subPayload (chunks : List PfsChunk) : Bytes :=
  ((sortChunks chunks).map PfsChunk.data).flatten

/-- One optional blob write (`main.rs` lines 176-184): emit the blob when
its size is nonzero; `none` is the `unwrap` panic on a missing blob. -/
def blobArt (sz : Nat) (blob : Option Bytes) (fname : String) :
    Option (List Artifact) :=
  if sz > 0 then
    match blob with
    | none => none
    | some b => some [(fname, b)]
  else some []

/-- The per-section body of the extraction loop (`main.rs` lines 123-258).
`inflate` stands for the external zlib decoder (`none` = decompression
failure, whose `expect` panics); `recurse` is the recursive `pfs_extract`
call on decompressed data. -/
def extractSection (inflate : Bytes → Option Bytes)
    (recurse : Bytes → String → Option (List Artifact))
    (i : Nat) (s : PfsSection) (pfx : String) : Option (List Artifact) :=
  let version := versionString s.version_type s.version
  if s.data_size = 0 then some []
  else
    match s.data with
    | none => none
    | some section_data =>
      let base := pfx ++ sectionFileName i s.name ++ "_" ++ version
      match blobArt s.data_sig_size s.data_sig (base ++ "data.sig") with
      | none => none
      | some a1 =>
        match blobArt s.meta_size s.meta (base ++ "meta") with
        | none => none
        | some a2 =>
          match blobArt s.meta_sig_size s.meta_sig (base ++ "meta.sig") with
          | none => none
          | some a3 =>
            let written := [(base ++ "data", section_data)] ++ a1 ++ a2 ++ a3
            match pfs_compressed_section section_data with
            | some (_, comp) =>
              match inflate comp.data with
              | none => none
              | some dec =>
                match recurse dec (base ++ "_") with
                | none => none
                | some rec_arts =>
                  some (written ++ [(base ++ "decompressed", dec)] ++ rec_arts)
            | none =>
              match pfs_file section_data with
              | some (_, sub) =>
                match collectChunks s.data_size sub.sections with
                | .panic => none
                | .cleared => some written
                | .ok chunks =>
                  if chunks.length > 0 then
                    some (written ++ [(base ++ "data.payload", subPayload chunks)])
                  else some written
              | none => some written

/-- The `for section in file.sections` loop: `i` is incremented at the top
of each iteration, so section `k` (0-based) is processed with index `k+1`. -/
def extractLoop (inflate : Bytes → Option Bytes)
    (recurse : Bytes → String → Option (List Artifact)) :
    Nat → List PfsSection → String → Option (List Artifact)
  | _, [], _ => some []
  | i, s :: rest, pfx =>
    match extractSection inflate recurse (i + 1) s pfx with
    | none => none
    | some arts =>
      match extractLoop inflate recurse (i + 1) rest pfx with
      | none => none
      | some more => some (arts ++ more)

/-- `main.rs pfs_extract`: parse, resolve names, extract each section.  A
top-level parse failure prints a diagnostic and returns normally (no
artifacts).  Fuel bounds the recursion depth through compressed sections;
`none` at fuel 0 models call-stack exhaustion. -/
def pfs_extract (inflate : Bytes → Option Bytes) :
    Nat → Bytes → String → Option (List Artifact)
  | 0, _, _ => none
  | fuel + 1, data, pfx =>
    match pfs_file data with
    | none => some []
    | some (_, f) =>
      match resolveNames f.sections with
      | none => none
      | some resolved =>
        extractLoop inflate (fun d p => pfs_extract inflate fuel d p) 0 resolved pfx

/-!  Byte-level encodings of the structures, used to state the round-trip
claims: a buffer laid out per the external-interface table (§6). -/

def encodeU16 (n : Nat) : Bytes := [n % 256, n / 256 % 256]

def encodeU32 (n : Nat) : Bytes :=
  [n % 256, n / 256 % 256, n / 65536 % 256, n / 16777216 % 256]

def encodeU64 (n : Nat) : Bytes :=
  [n % 256, n / 256 % 256, n / 65536 % 256, n / 16777216 % 256,
   n / 4294967296 % 256, n / 1099511627776 % 256,
   n / 281474976710656 % 256, n / 72057594037927936 % 256]

def encodeU16List (l : List Nat) : Bytes := (l.map encodeU16).flatten

def encodeGuid (g : Guid) : Bytes :=
  encodeU32 g.data1 ++ encodeU16 g.data2 ++ encodeU16 g.data3 ++ g.data4

def encodeHeader (h : PfsHeader) : Bytes :=
  hdrMagic ++ encodeU32 h.header_version ++ encodeU32 h.data_size

def encodeFooter (f : PfsFooter) : Bytes :=
  encodeU32 f.data_size ++ encodeU32 f.checksum ++ ftrMagic

def optBytes (o : Option Bytes) : Bytes := o.getD []

def encodeSection (s : PfsSection) : Bytes :=
  encodeGuid s.guid ++ encodeU32 s.header_version ++ s.version_type ++
  encodeU16List s.version ++ encodeU64 s.reserved ++
  encodeU32 s.data_size ++ encodeU32 s.data_sig_size ++
  encodeU32 s.meta_size ++ encodeU32 s.meta_sig_size ++ s.unknown ++
  optBytes s.data ++ optBytes s.data_sig ++ optBytes s.meta ++
  optBytes s.meta_sig

/-- A byte list: every element below 256. -/
def ByteList (l : Bytes) : Prop := ∀ b ∈ l, b < 256

instance : ∀ l, Decidable (ByteList l) := fun l =>
  List.decidableBAll (fun b => b < 256) l

def WFGuid (g : Guid) : Prop :=
  g.data1 < 4294967296 ∧ g.data2 < 65536 ∧ g.data3 < 65536 ∧
  g.data4.length = 8 ∧ ByteList g.data4

instance : ∀ g, Decidable (WFGuid g) := fun g => by
  unfold WFGuid; infer_instance

/-- A blob squares with its declared size: absent exactly when the size is
zero, and otherwise of exactly the declared length. -/
def blobWF (sz : Nat) (o : Option Bytes) : Prop :=
  match o with
  | none => sz = 0
  | some b => 0 < sz ∧ b.length = sz

instance : ∀ sz o, Decidable (blobWF sz o) := fun sz o => by
  unfold blobWF; cases o <;> infer_instance

def WFHeader (h : PfsHeader) : Prop :=
  h.header_version < 4294967296 ∧ h.data_size < 4294967296

instance : ∀ h, Decidable (WFHeader h) := fun h => by
  unfold WFHeader; infer_instance

def WFFooter (f : PfsFooter) : Prop :=
  f.checksum < 4294967296 ∧ f.data_size < 4294967296

instance : ∀ f, Decidable (WFFooter f) := fun f => by
  unfold WFFooter; infer_instance

/-- A well-formed section value: field ranges per the byte layout, blobs
matching their sizes, and the not-yet-resolved empty name. -/
def WFSection (s : PfsSection) : Prop :=
  s.name = "" ∧ WFGuid s.guid ∧ s.header_version < 4294967296 ∧
  s.version_type.length = 4 ∧ ByteList s.version_type ∧
  s.version.length = 4 ∧ (∀ x ∈ s.version, x < 65536) ∧
  s.reserved < 18446744073709551616 ∧
  s.data_size < 4294967296 ∧ s.data_sig_size < 4294967296 ∧
  s.meta_size < 4294967296 ∧ s.meta_sig_size < 4294967296 ∧
  s.unknown.length = 16 ∧ ByteList s.unknown ∧
  blobWF s.data_size s.data ∧ blobWF s.data_sig_size s.data_sig ∧
  blobWF s.meta_size s.meta ∧ blobWF s.meta_sig_size s.meta_sig

instance : ∀ s, Decidable (WFSection s) := fun s => by
  unfold WFSection; infer_instance

/-!  Concrete fixtures used by the claim witnesses and counterexamples. -/

def zeroGuid : Guid := { data1 := 0, data2 := 0, data3 := 0, data4 := [0, 0, 0, 0, 0, 0, 0, 0] }

def hdrA : PfsHeader := { header_version := 1, data_size := 16 }

def ftrA : PfsFooter := { checksum := 0, data_size := 16 }

/-- A well-formed section with all four sizes zero. -/
def secZero : PfsSection :=
  { name := "", guid := zeroGuid, header_version := 1,
    version_type := [0, 0, 0, 0], version := [0, 0, 0, 0], reserved := 0,
    data_size := 0, data_sig_size := 0, meta_size := 0, meta_sig_size := 0,
    unknown := [0, 0, 0, 0, 0, 0, 0, 0, 0, 0, 0, 0, 0, 0, 0, 0],
    data := none, data_sig := none, meta := none, meta_sig := none }

/-- A well-formed section whose guid ends in the footer magic bytes. -/
def secFtrGuid : PfsSection :=
  { secZero with guid := { zeroGuid with data4 := ftrMagic } }

def c1buf : Bytes :=
  encodeHeader hdrA ++ ([secFtrGuid].map encodeSection).flatten ++ encodeFooter ftrA

/-- A container holding only a header and a footer. -/
def emptyBuf : Bytes := encodeHeader hdrA ++ encodeFooter ftrA

/-- A zlib oracle that always fails; the concrete runs never reach it. -/
def noInflate : Bytes → Option Bytes := fun _ => none

/-- `secZero` carrying the given bytes as its data blob. -/
def withData (b : Bytes) : PfsSection :=
  { secZero with data_size := b.length, data := some b }

/-- A container with a single zero-size section. -/
def nestedZeroBuf : Bytes :=
  encodeHeader hdrA ++ encodeSection secZero ++ encodeFooter ftrA

/-- A section whose payload is `nestedZeroBuf`. -/
def secNestedZero : PfsSection := withData nestedZeroBuf

/-- A chunk record: 0x3E zero bytes, the order number, zeros up to offset
0x248, then the payload. -/
def chunkBytes (onum : Nat) (payload : Bytes) : Bytes :=
  List.replicate 0x3E 0 ++ encodeU16 onum ++
  List.replicate (0x248 - 0x40) 0 ++ payload

def chunkC : Bytes := chunkBytes 3 [0x43]

def chunkA : Bytes := chunkBytes 1 [0x41]

def chunkB : Bytes := chunkBytes 2 [0x42]

/-- A nested container whose three sections carry chunk records with order
numbers 3, 1, 2 and payloads "C", "A", "B". -/
def chunksBuf : Bytes :=
  encodeHeader hdrA ++ encodeSection (withData chunkC) ++
  encodeSection (withData chunkA) ++ encodeSection (withData chunkB) ++
  encodeFooter ftrA

def secChunks : PfsSection := withData chunksBuf

def subFile : PfsFile :=
  { header := hdrA,
    sections := [withData chunkC, withData chunkA, withData chunkB],
    footer := ftrA }

/-- One encoded info record with the given UTF-16 name units. -/
def infoRecord (units : List Nat) : Bytes :=
  encodeU32 7 ++ encodeGuid zeroGuid ++ encodeU16List [0, 0, 0, 0] ++
  [0, 0, 0, 0] ++ encodeU16 units.length ++ encodeU16List units ++ [0, 0]

/-- An information-section payload with the single name "Hi". -/
def infoPayload1 : Bytes := infoRecord [72, 105]

def secInfo1 : PfsSection := withData infoPayload1

def secData1 : PfsSection := withData [9]

def c2sec : PfsSection := withData [5]

def c2buf : Bytes := encodeSection c2sec

/-!  Encode/decode round-trip lemmas for the primitives.  In each lemma the
trailing remainder `r` comes last so the lemma can be handed to `simp`
fully instantiated on the value and its well-formedness facts. -/

theorem le_u16_encode (n : Nat) (h : n < 65536) (r : Bytes) :
    le_u16 (encodeU16 n ++ r) = some (r, n) := by
  simp only [encodeU16, List.cons_append, List.nil_append, le_u16,
    Option.some.injEq, Prod.mk.injEq, true_and]
  omega

theorem le_u32_encode (n : Nat) (h : n < 4294967296) (r : Bytes) :
    le_u32 (encodeU32 n ++ r) = some (r, n) := by
  simp only [encodeU32, List.cons_append, List.nil_append, le_u32,
    Option.some.injEq, Prod.mk.injEq, true_and]
  omega

theorem le_u64_encode (n : Nat) (h : n < 18446744073709551616) (r : Bytes) :
    le_u64 (encodeU64 n ++ r) = some (r, n) := by
  simp only [encodeU64, List.cons_append, List.nil_append, le_u64,
    Option.some.injEq, Prod.mk.injEq, true_and]
  omega

theorem take_bytes_encode (b r : Bytes) :
    take_bytes b.length (b ++ r) = some (r, b) := by
  simp [take_bytes, List.take_left, List.drop_left, List.length_append]

theorem take_bytes_encode_of_length (n : Nat) (b : Bytes) (h : b.length = n)
    (r : Bytes) : take_bytes n (b ++ r) = some (r, b) := by
  subst h; exact take_bytes_encode b r

theorem tag_bytes_encode (t r : Bytes) : tag_bytes t (t ++ r) = some (r, t) := by
  simp [tag_bytes, List.isPrefixOf_iff_prefix, List.prefix_append, List.drop_left]

/-- A tag of the same length as a leading block only matches when it equals
that block. -/
theorem tag_bytes_ne (t b : Bytes) (hlen : b.length = t.length) (hne : b ≠ t)
    (r : Bytes) : tag_bytes t (b ++ r) = none := by
  have hnp : ¬ t.isPrefixOf (b ++ r) := by
    rw [List.isPrefixOf_iff_prefix]
    intro hp
    have h2 := List.prefix_iff_eq_take.mp hp
    rw [List.take_append_of_le_length (le_of_eq hlen.symm), ← hlen,
      List.take_length] at h2
    exact hne h2.symm
  simp [tag_bytes, hnp]

theorem count_u8_encode (n : Nat) (l : Bytes) (h : l.length = n) (r : Bytes) :
    count_p le_u8 n (l ++ r) = some (r, l) := by
  induction l generalizing n r with
  | nil => subst h; simp [count_p]
  | cons b t ih =>
    subst h
    simp only [List.length_cons, List.cons_append, count_p, le_u8, pbind_some,
      ih t.length rfl r]

theorem encodeU16List_cons (x : Nat) (t : List Nat) :
    encodeU16List (x :: t) = encodeU16 x ++ encodeU16List t := by
  simp [encodeU16List]

theorem count_u16_encode (l : List Nat) (hb : ∀ x ∈ l, x < 65536) (n : Nat)
    (hlen : l.length = n) (r : Bytes) :
    count_p le_u16 n (encodeU16List l ++ r) = some (r, l) := by
  induction l generalizing n r with
  | nil => subst hlen; simp [count_p, encodeU16List]
  | cons x t ih =>
    subst hlen
    have hx : x < 65536 := hb x (by simp)
    have ht : ∀ y ∈ t, y < 65536 := fun y hy => hb y (by simp [hy])
    simp only [encodeU16List_cons, List.append_assoc, List.length_cons, count_p,
      pbind_some, le_u16_encode x hx, ih ht t.length rfl]

theorem guid_encode (g : Guid) (h : WFGuid g) (r : Bytes) :
    guid (encodeGuid g ++ r) = some (r, g) := by
  obtain ⟨h1, h2, h3, h4, _⟩ := h
  simp only [encodeGuid, List.append_assoc, guid, pbind_some,
    le_u32_encode g.data1 h1, le_u16_encode g.data2 h2,
    le_u16_encode g.data3 h3, count_u8_encode 8 g.data4 h4]

theorem pfs_header_encode (h : PfsHeader) (hw : WFHeader h) (r : Bytes) :
    pfs_header (encodeHeader h ++ r) = some (r, h) := by
  obtain ⟨h1, h2⟩ := hw
  simp only [encodeHeader, List.append_assoc, pfs_header, pbind_some,
    tag_bytes_encode, le_u32_encode h.header_version h1,
    le_u32_encode h.data_size h2]

theorem pfs_footer_encode (f : PfsFooter) (hw : WFFooter f) (r : Bytes) :
    pfs_footer (encodeFooter f ++ r) = some (r, f) := by
  obtain ⟨h1, h2⟩ := hw
  simp only [encodeFooter, List.append_assoc, pfs_footer, pbind_some,
    tag_bytes_encode, le_u32_encode f.checksum h1,
    le_u32_encode f.data_size h2]

theorem cond_take_encode (sz : Nat) (o : Option Bytes) (h : blobWF sz o)
    (r : Bytes) :
    cond_with_error (sz > 0) (take_bytes sz) (optBytes o ++ r) = some (r, o) := by
  cases o with
  | none =>
    unfold blobWF at h
    simp [cond_with_error, optBytes, h]
  | some b =>
    unfold blobWF at h
    simp only [cond_with_error, optBytes, Option.getD_some, gt_iff_lt, h.1,
      if_true, take_bytes_encode_of_length sz b h.2 r, pbind_some]

theorem pfs_section_encode (s : PfsSection) (h : WFSection s) (r : Bytes) :
    pfs_section (encodeSection s ++ r) = some (r, s) := by
  obtain ⟨hn, hg, hv, hvt4, _, hv4, hvB, hr, hds, hdss, hms, hmss, hu16, _,
    hbd, hbds, hbm, hbms⟩ := h
  simp only [encodeSection, List.append_assoc, pfs_section, pbind_some,
    guid_encode s.guid hg,
    le_u32_encode s.header_version hv, count_u8_encode 4 s.version_type hvt4,
    count_u16_encode s.version hvB 4 hv4, le_u64_encode s.reserved hr,
    le_u32_encode s.data_size hds, le_u32_encode s.data_sig_size hdss,
    le_u32_encode s.meta_size hms, le_u32_encode s.meta_sig_size hmss,
    count_u8_encode 16 s.unknown hu16,
    cond_take_encode s.data_size s.data hbd,
    cond_take_encode s.data_sig_size s.data_sig hbds,
    cond_take_encode s.meta_size s.meta hbm,
    cond_take_encode s.meta_sig_size s.meta_sig hbms]
  rw [← hn]

/-- At the start of an encoded section whose guid's final 8 bytes are not the
footer magic, the footer parser fails (the magic comparison lands exactly on
`guid.data4`). -/
theorem pfs_footer_section (s : PfsSection) (h : WFSection s)
    (hne : s.guid.data4 ≠ ftrMagic) (r : Bytes) :
    pfs_footer (encodeSection s ++ r) = none := by
  obtain ⟨_, hg, _⟩ := h
  obtain ⟨h1, _, _, h4, _⟩ := hg
  simp only [encodeSection, encodeGuid, List.append_assoc, pfs_footer,
    pbind_some, le_u32_encode s.guid.data1 h1]
  simp only [encodeU16, List.cons_append, List.nil_append, le_u32, pbind_some]
  simp only [tag_bytes_ne ftrMagic s.guid.data4 (by rw [h4]; rfl) hne,
    pbind_none]

theorem encodeSection_length_pos (s : PfsSection) :
    0 < (encodeSection s).length := by
  simp [encodeSection, encodeGuid, encodeU32]

theorem sections_flatten_length (ss : List PfsSection) :
    ss.length ≤ ((ss.map encodeSection).flatten).length := by
  induction ss with
  | nil => simp
  | cons s t ih =>
    simp only [List.map_cons, List.flatten_cons, List.length_cons,
      List.length_append]
    have := encodeSection_length_pos s
    omega

theorem sections_till_encode (ss : List PfsSection) (f : PfsFooter) (fuel : Nat)
    (hss : ∀ s ∈ ss, WFSection s) (hne : ∀ s ∈ ss, s.guid.data4 ≠ ftrMagic)
    (hf : WFFooter f) (hfuel : ss.length ≤ fuel) :
    pfs_sections_till_footer fuel ((ss.map encodeSection).flatten ++ encodeFooter f) =
      some ([], (ss, f)) := by
  induction ss generalizing fuel with
  | nil =>
    have hfe := pfs_footer_encode f hf []
    rw [List.append_nil] at hfe
    cases fuel <;> simp [pfs_sections_till_footer, hfe]
  | cons s t ih =>
    cases fuel with
    | zero => simp at hfuel
    | succ fuel =>
      have hs := hss s (by simp)
      have hfuel2 : t.length ≤ fuel := by
        simp only [List.length_cons] at hfuel; omega
      simp only [List.map_cons, List.flatten_cons, List.append_assoc,
        pfs_sections_till_footer,
        pfs_footer_section s hs (hne s (by simp)),
        pfs_section_encode s hs,
        ih fuel (fun x hx => hss x (List.mem_cons_of_mem _ hx))
          (fun x hx => hne x (List.mem_cons_of_mem _ hx)) hfuel2]

/-- Decoding an encoded container: header, `N` well-formed sections none of
whose guids end in the footer magic, footer. -/
theorem pfs_file_encode (h : PfsHeader) (ss : List PfsSection) (f : PfsFooter)
    (hh : WFHeader h) (hss : ∀ s ∈ ss, WFSection s)
    (hne : ∀ s ∈ ss, s.guid.data4 ≠ ftrMagic) (hf : WFFooter f) :
    pfs_file (encodeHeader h ++ (ss.map encodeSection).flatten ++ encodeFooter f) =
      some ([], { header := h, sections := ss, footer := f }) := by
  have hst := sections_till_encode ss f
    (((ss.map encodeSection).flatten ++ encodeFooter f).length) hss hne hf
    (by rw [List.length_append]
        exact le_trans (sections_flatten_length ss) (Nat.le_add_right _ _))
  rw [List.append_assoc]
  simp only [pfs_file, pbind_some, pfs_header_encode h hh, hst]

/-!  Inversion lemmas: what a successful parse says about the input. -/

theorem le_u16_pre {i r : Bytes} {n : Nat} (h : le_u16 i = some (r, n)) :
    ∃ b : Bytes, i = b ++ r ∧ b.length = 2 := by
  rcases i with _ | ⟨b0, _ | ⟨b1, t⟩⟩ <;> simp [le_u16] at h
  exact ⟨[b0, b1], by simp [h.1]⟩

theorem le_u32_pre {i r : Bytes} {n : Nat} (h : le_u32 i = some (r, n)) :
    ∃ b : Bytes, i = b ++ r ∧ b.length = 4 := by
  rcases i with _ | ⟨b0, _ | ⟨b1, _ | ⟨b2, _ | ⟨b3, t⟩⟩⟩⟩ <;> simp [le_u32] at h
  exact ⟨[b0, b1, b2, b3], by simp [h.1]⟩

theorem le_u64_pre {i r : Bytes} {n : Nat} (h : le_u64 i = some (r, n)) :
    ∃ b : Bytes, i = b ++ r ∧ b.length = 8 := by
  rcases i with _ | ⟨b0, _ | ⟨b1, _ | ⟨b2, _ | ⟨b3, _ | ⟨b4, _ | ⟨b5, _ |
    ⟨b6, _ | ⟨b7, t⟩⟩⟩⟩⟩⟩⟩⟩ <;> simp [le_u64] at h
  exact ⟨[b0, b1, b2, b3, b4, b5, b6, b7], by simp [h.1]⟩

theorem le_u8_pre {i r : Bytes} {n : Nat} (h : le_u8 i = some (r, n)) :
    ∃ b : Bytes, i = b ++ r ∧ b.length = 1 := by
  rcases i with _ | ⟨b0, t⟩ <;> simp [le_u8] at h
  exact ⟨[b0], by simp [h.1]⟩

theorem take_bytes_inv {n : Nat} {i r b : Bytes}
    (h : take_bytes n i = some (r, b)) : i = b ++ r ∧ b.length = n := by
  unfold take_bytes at h
  split at h
  · next hle =>
    simp only [Option.some.injEq, Prod.mk.injEq] at h
    obtain ⟨h1, h2⟩ := h
    subst h1
    subst h2
    refine ⟨(List.take_append_drop n i).symm, ?_⟩
    simp [List.length_take]
    omega
  · exact absurd h (by simp)

theorem tag_bytes_inv {t i r b : Bytes} (h : tag_bytes t i = some (r, b)) :
    i = t ++ r := by
  unfold tag_bytes at h
  split at h
  · next hp =>
    simp only [Option.some.injEq, Prod.mk.injEq] at h
    obtain ⟨h1, _⟩ := h
    obtain ⟨q, hq⟩ := List.isPrefixOf_iff_prefix.mp hp
    subst hq
    simp only [List.drop_left] at h1
    rw [h1]
  · exact absurd h (by simp)

theorem count_p_pre {α : Type} {p : Bytes → Option (Bytes × α)} (k : Nat)
    (hp : ∀ i r a, p i = some (r, a) → ∃ b : Bytes, i = b ++ r ∧ b.length = k) :
    ∀ (n : Nat) (i r : Bytes) (l : List α), count_p p n i = some (r, l) →
      ∃ b : Bytes, i = b ++ r ∧ b.length = n * k := by
  intro n
  induction n with
  | zero =>
    intro i r l h
    simp only [count_p, Option.some.injEq, Prod.mk.injEq] at h
    exact ⟨[], by simp [h.1]⟩
  | succ m ih =>
    intro i r l h
    rw [count_p] at h
    obtain ⟨r1, a, h1, h⟩ := pbind_eq_some h
    obtain ⟨r2, items, h2, h⟩ := pbind_eq_some h
    simp only [Option.some.injEq, Prod.mk.injEq] at h
    obtain ⟨b1, hb1, hl1⟩ := hp i r1 a h1
    obtain ⟨b2, hb2, hl2⟩ := ih r1 r2 items h2
    refine ⟨b1 ++ b2, ?_, by simp [hl1, hl2]; ring⟩
    rw [hb1, hb2, List.append_assoc, h.1]

theorem guid_pre {i r : Bytes} {g : Guid} (h : guid i = some (r, g)) :
    ∃ b : Bytes, i = b ++ r ∧ b.length = 16 := by
  rw [guid] at h
  obtain ⟨i1, d1, h1, h⟩ := pbind_eq_some h
  obtain ⟨i2, d2, h2, h⟩ := pbind_eq_some h
  obtain ⟨i3, d3, h3, h⟩ := pbind_eq_some h
  obtain ⟨i4, d4, h4, h⟩ := pbind_eq_some h
  simp only [Option.some.injEq, Prod.mk.injEq] at h
  obtain ⟨b1, hb1, hl1⟩ := le_u32_pre h1
  obtain ⟨b2, hb2, hl2⟩ := le_u16_pre h2
  obtain ⟨b3, hb3, hl3⟩ := le_u16_pre h3
  obtain ⟨b4, hb4, hl4⟩ := count_p_pre 1 (fun i r a hh => le_u8_pre hh) 8 _ _ _ h4
  refine ⟨b1 ++ b2 ++ b3 ++ b4, ?_, by simp [hl1, hl2, hl3, hl4]⟩
  rw [hb1, hb2, hb3, hb4, h.1]
  simp [List.append_assoc]

theorem cond_take_inv {sz : Nat} {i r : Bytes} {o : Option Bytes}
    (h : cond_with_error (sz > 0) (take_bytes sz) i = some (r, o)) :
    i = optBytes o ++ r ∧ blobWF sz o := by
  unfold cond_with_error at h
  split at h
  · next hpos =>
    obtain ⟨r1, b, h1, h⟩ := pbind_eq_some h
    simp only [Option.some.injEq, Prod.mk.injEq] at h
    obtain ⟨hb, hl⟩ := take_bytes_inv h1
    rw [← h.2, ← h.1]
    exact ⟨by simpa [optBytes] using hb, by simp [blobWF, hl, hpos]⟩
  · next hneg =>
    simp only [Option.some.injEq, Prod.mk.injEq] at h
    rw [← h.2, ← h.1]
    refine ⟨by simp [optBytes], ?_⟩
    simp only [blobWF]
    omega

/-- Full blob inversion for a successful `pfs_section` parse: the four blobs
match their sizes and sit, in order, right after the 72 fixed bytes. -/
theorem pfs_section_blobs {input r : Bytes} {s : PfsSection}
    (h : pfs_section input = some (r, s)) :
    blobWF s.data_size s.data ∧ blobWF s.data_sig_size s.data_sig ∧
    blobWF s.meta_size s.meta ∧ blobWF s.meta_sig_size s.meta_sig ∧
    ∃ pre : Bytes, pre.length = 72 ∧
      input = pre ++ optBytes s.data ++ optBytes s.data_sig ++
        optBytes s.meta ++ optBytes s.meta_sig ++ r := by
  rw [pfs_section] at h
  obtain ⟨i1, g, h1, h⟩ := pbind_eq_some h
  obtain ⟨i2, hv, h2, h⟩ := pbind_eq_some h
  obtain ⟨i3, vt, h3, h⟩ := pbind_eq_some h
  obtain ⟨i4, v, h4, h⟩ := pbind_eq_some h
  obtain ⟨i5, rsv, h5, h⟩ := pbind_eq_some h
  obtain ⟨i6, ds, h6, h⟩ := pbind_eq_some h
  obtain ⟨i7, dss, h7, h⟩ := pbind_eq_some h
  obtain ⟨i8, ms, h8, h⟩ := pbind_eq_some h
  obtain ⟨i9, mss, h9, h⟩ := pbind_eq_some h
  obtain ⟨i10, u, h10, h⟩ := pbind_eq_some h
  obtain ⟨i11, dp, h11, h⟩ := pbind_eq_some h
  obtain ⟨i12, dsp, h12, h⟩ := pbind_eq_some h
  obtain ⟨i13, mp, h13, h⟩ := pbind_eq_some h
  obtain ⟨i14, msp, h14, h⟩ := pbind_eq_some h
  simp only [Option.some.injEq, Prod.mk.injEq] at h
  obtain ⟨hr, hs⟩ := h
  subst hr
  subst hs
  obtain ⟨b1, hb1, hl1⟩ := guid_pre h1
  obtain ⟨b2, hb2, hl2⟩ := le_u32_pre h2
  obtain ⟨b3, hb3, hl3⟩ := count_p_pre 1 (fun i r a hh => le_u8_pre hh) 4 _ _ _ h3
  obtain ⟨b4, hb4, hl4⟩ := count_p_pre 2 (fun i r a hh => le_u16_pre hh) 4 _ _ _ h4
  obtain ⟨b5, hb5, hl5⟩ := le_u64_pre h5
  obtain ⟨b6, hb6, hl6⟩ := le_u32_pre h6
  obtain ⟨b7, hb7, hl7⟩ := le_u32_pre h7
  obtain ⟨b8, hb8, hl8⟩ := le_u32_pre h8
  obtain ⟨b9, hb9, hl9⟩ := le_u32_pre h9
  obtain ⟨b10, hb10, hl10⟩ := count_p_pre 1 (fun i r a hh => le_u8_pre hh) 16 _ _ _ h10
  obtain ⟨hc11, hw11⟩ := cond_take_inv h11
  obtain ⟨hc12, hw12⟩ := cond_take_inv h12
  obtain ⟨hc13, hw13⟩ := cond_take_inv h13
  obtain ⟨hc14, hw14⟩ := cond_take_inv h14
  refine ⟨hw11, hw12, hw13, hw14,
    b1 ++ b2 ++ b3 ++ b4 ++ b5 ++ b6 ++ b7 ++ b8 ++ b9 ++ b10, ?_, ?_⟩
  · simp [hl1, hl2, hl3, hl4, hl5, hl6, hl7, hl8, hl9, hl10]
  · rw [hb1, hb2, hb3, hb4, hb5, hb6, hb7, hb8, hb9, hb10,
      hc11, hc12, hc13, hc14]
    simp [List.append_assoc]

/-- A successful info record consumes at least 36 bytes, in particular at
least one. -/
theorem pfs_info_section_consumes {i r : Bytes} {s : PfsInfoSection}
    (h : pfs_info_section i = some (r, s)) : r.length < i.length := by
  rw [pfs_info_section] at h
  obtain ⟨i1, hv, h1, h⟩ := pbind_eq_some h
  obtain ⟨i2, g, h2, h⟩ := pbind_eq_some h
  obtain ⟨i3, v, h3, h⟩ := pbind_eq_some h
  obtain ⟨i4, vt, h4, h⟩ := pbind_eq_some h
  obtain ⟨i5, l, h5, h⟩ := pbind_eq_some h
  obtain ⟨i6, n, h6, h⟩ := pbind_eq_some h
  obtain ⟨i7, tg, h7, h⟩ := pbind_eq_some h
  simp only [Option.some.injEq, Prod.mk.injEq] at h
  obtain ⟨b1, e1, l1⟩ := le_u32_pre h1
  obtain ⟨b2, e2, l2⟩ := guid_pre h2
  obtain ⟨b3, e3, l3⟩ := count_p_pre 2 (fun _ _ _ hh => le_u16_pre hh) 4 _ _ _ h3
  obtain ⟨b4, e4, l4⟩ := count_p_pre 1 (fun _ _ _ hh => le_u8_pre hh) 4 _ _ _ h4
  obtain ⟨b5, e5, l5⟩ := le_u16_pre h5
  obtain ⟨b6, e6, l6⟩ := count_p_pre 2 (fun _ _ _ hh => le_u16_pre hh) l _ _ _ h6
  have e7 := tag_bytes_inv h7
  have k1 : i.length = b1.length + i1.length := by rw [e1, List.length_append]
  have k2 : i1.length = b2.length + i2.length := by rw [e2, List.length_append]
  have k3 : i2.length = b3.length + i3.length := by rw [e3, List.length_append]
  have k4 : i3.length = b4.length + i4.length := by rw [e4, List.length_append]
  have k5 : i4.length = b5.length + i5.length := by rw [e5, List.length_append]
  have k6 : i5.length = b6.length + i6.length := by rw [e6, List.length_append]
  have k7 : i6.length = 2 + i7.length := by rw [e7, List.length_append]; rfl
  have hri7 : r = i7 := h.1.symm
  rw [hri7]
  omega

/-- `many0` over the info records always succeeds: records are collected up
to the first failure, and the remainder starts with no further record. -/
theorem pfs_info_go_some : ∀ (fuel : Nat) (i : Bytes), i.length ≤ fuel →
    ∃ r v, pfs_info_go fuel i = some (r, v) ∧ pfs_info_section r = none := by
  intro fuel
  induction fuel with
  | zero =>
    intro i hle
    have hnil : i = [] := List.eq_nil_of_length_eq_zero (Nat.le_zero.mp hle)
    subst hnil
    have h0 : pfs_info_section [] = none := by decide
    exact ⟨[], [], by simp [pfs_info_go, h0], h0⟩
  | succ f ih =>
    intro i hle
    rcases hs : pfs_info_section i with _ | ⟨r1, s⟩
    · exact ⟨i, [], by simp [pfs_info_go, hs], hs⟩
    · have hlt := pfs_info_section_consumes hs
      obtain ⟨r2, v, hgo, hend⟩ := ih r1 (by omega)
      exact ⟨r2, s :: v, by simp [pfs_info_go, hs, hlt, hgo], hend⟩

/-- `pfs_info` never fails. -/
theorem pfs_info_some (input : Bytes) :
    ∃ r v, pfs_info input = some (r, v) ∧ pfs_info_section r = none :=
  pfs_info_go_some input.length input (le_refl _)

/-- A buffer that parses as a PFS container can never parse as a compressed
section: the container magic forces byte 4 to be `0x48`, the compressed
magic requires `0xAA` there. -/
theorem pfs_file_not_compressed {d : Bytes} {x : Bytes × PfsFile}
    (h : pfs_file d = some x) : pfs_compressed_section d = none := by
  rw [pfs_file] at h
  obtain ⟨i, hdr, h1, _⟩ := pbind_eq_some h
  rw [pfs_header] at h1
  obtain ⟨i2, tg, h2, _⟩ := pbind_eq_some h1
  have hd := tag_bytes_inv h2
  subst hd
  simp [pfs_compressed_section, hdrMagic, compMagic, le_u32, tag_bytes,
    List.isPrefixOf, List.cons_append]

/-- When every nested section's data parses as a chunk, the collection loop
returns exactly those chunks. -/
theorem collectChunks_ok {outer : Nat} (houter : outer ≠ 0)
    {secs : List PfsSection} {chunks : List PfsChunk}
    (hf : List.Forall₂ (fun (sec : PfsSection) (ch : PfsChunk) =>
      ∃ d r2, sec.data = some d ∧ pfs_chunk d = some (r2, ch)) secs chunks) :
    collectChunks outer secs = .ok chunks := by
  induction hf with
  | nil => simp [collectChunks]
  | cons hrel hrest ih =>
    obtain ⟨d, r2, hd, hch⟩ := hrel
    simp [collectChunks, houter, hd, hch, ih]

theorem blobWF_none_iff {sz : Nat} {o : Option Bytes} (h : blobWF sz o) :
    o.isSome ↔ sz ≠ 0 := by
  cases o <;> simp only [blobWF] at h <;> simp [h]
  omega

theorem blobWF_length {sz : Nat} {o : Option Bytes} (h : blobWF sz o) :
    ∀ b, o = some b → b.length = sz := by
  intro b hb
  subst hb
  exact h.2

theorem blobArt_wf {sz : Nat} {o : Option Bytes} (h : blobWF sz o)
    (fn : String) : ∃ a, blobArt sz o fn = some a := by
  cases o with
  | none =>
    simp only [blobWF] at h
    exact ⟨[], by simp [blobArt, h]⟩
  | some b =>
    exact ⟨[(fn, b)], by simp [blobArt, h.1]⟩

instance : IsTotal PfsChunk chunkLe :=
  ⟨fun a b => Nat.le_total a.order_number b.order_number⟩

instance : IsTrans PfsChunk chunkLe :=
  ⟨fun _ _ _ hab hbc => Nat.le_trans hab hbc⟩

/-!  The version-string scanner. -/

theorem versionScan_hex (x : Nat) (ts : List (Nat × Nat)) (acc : String) :
    versionScan ((0x41, x) :: ts) acc = versionScan ts (acc ++ toHexUpper x ++ ".") := by
  simp [versionScan]

theorem versionScan_dec (x : Nat) (ts : List (Nat × Nat)) (acc : String) :
    versionScan ((0x4E, x) :: ts) acc = versionScan ts (acc ++ Nat.repr x ++ ".") := by
  simp [versionScan]

theorem versionScan_stop (t x : Nat) (ts : List (Nat × Nat)) (acc : String)
    (h : t = 0x20 ∨ t = 0x00) : versionScan ((t, x) :: ts) acc = acc := by
  rcases h with rfl | rfl <;> simp [versionScan]

theorem versionScan_unknown_tag (t x : Nat) (ts : List (Nat × Nat)) (acc : String)
    (h41 : t ≠ 0x41) (h4E : t ≠ 0x4E) (h20 : t ≠ 0x20) (h0 : t ≠ 0x00) :
    versionScan ((t, x) :: ts) acc = "" := by
  simp [versionScan, h41, h4E, h20, h0]

/-- If an unknown tag occurs with only `0x41`/`0x4E` tags before it, the scan
reaches it and discards everything. -/
theorem versionScan_hits_unknown (pre : List Nat) (t : Nat) (suf vs : List Nat)
    (acc : String) (hpre : ∀ x ∈ pre, x = 0x41 ∨ x = 0x4E)
    (hlen : pre.length < vs.length)
    (ht : t ≠ 0x41 ∧ t ≠ 0x4E ∧ t ≠ 0x20 ∧ t ≠ 0x00) :
    versionScan ((pre ++ t :: suf).zip vs) acc = "" := by
  induction pre generalizing vs acc with
  | nil =>
    cases vs with
    | nil => simp at hlen
    | cons v vs2 =>
      simp only [List.nil_append, List.zip_cons_cons]
      exact versionScan_unknown_tag t v _ acc ht.1 ht.2.1 ht.2.2.1 ht.2.2.2
  | cons p ps ih =>
    cases vs with
    | nil => simp at hlen
    | cons v vs2 =>
      simp only [List.cons_append, List.zip_cons_cons]
      have hlen2 : ps.length < vs2.length := by
        simp only [List.length_cons] at hlen; omega
      rcases hpre p (by simp) with rfl | rfl
      · rw [versionScan_hex]
        exact ih vs2 _ (fun x hx => hpre x (by simp [hx])) hlen2
      · rw [versionScan_dec]
        exact ih vs2 _ (fun x hx => hpre x (by simp [hx])) hlen2

theorem usizeSub_one (L : Nat) (h1 : 1 ≤ L) (h2 : L < 18446744073709551616) :
    usizeSub L 1 = L - 1 := by
  unfold usizeSub
  omega

/-- **C7 (amended)**: for every successfully decoded container whose last
(information) section has nonzero data size, metadata resolution renames
that last section to "Section Info".  (When the data size is zero the
resolution block is skipped and the name stays empty — see the
counterexample.) -/
theorem claim_C7 (sections out : List PfsSection) (info : PfsSection)
    (hlast : sections.getLast? = some info) (hds : info.data_size ≠ 0)
    (hres : resolveNames sections = some out) :
    out.getLast? = some { info with name := "Section Info" } := by
  unfold resolveNames at hres
  simp only [hlast] at hres
  rw [if_pos hds] at hres
  cases hd : info.data with
  | none => simp only [hd] at hres; exact Option.noConfusion hres
  | some d =>
    simp only [hd] at hres
    obtain ⟨r, v, hinfo, _⟩ := pfs_info_some d
    simp only [hinfo, Option.some.injEq] at hres
    rw [← hres]
    exact List.getLast?_concat _

/-- **C7 counterexample**: a decoded container whose information section has
zero data size keeps its empty name — it is not renamed "Section Info". -/
theorem claim_C7_counterexample :
    pfs_file nestedZeroBuf =
      some ([], { header := hdrA, sections := [secZero], footer := ftrA }) ∧
    resolveNames [secZero] = some [secZero] ∧
    secZero.name ≠ "Section Info" := by
  decide

/-- Witness for C7 at a concrete container: one data section, one
information section naming it; the information section ends up renamed. -/
theorem claim_C7_witness :
    ([secData1, secInfo1].getLast? = some secInfo1) ∧
    secInfo1.data_size ≠ 0 ∧
    ∃ out, resolveNames [secData1, secInfo1] = some out ∧
      out.getLast? = some { secInfo1 with name := "Section Info" } := by
  refine ⟨by decide, by decide, ?_⟩
  rcases hres : resolveNames [secData1, secInfo1] with _ | out
  · exact absurd hres (by decide)
  · exact ⟨out, rfl, claim_C7 _ out secInfo1 (by decide) (by decide) hres⟩

/-- **C8**: with at least one non-information section and a decodable
information payload, the last non-information section is renamed
"Model Properties" exactly when the number of names assigned in order
(`min` of name count and section count) equals the number of
non-information sections minus one; otherwise the resolver output is the
plain in-order assignment, with no "Model Properties" renaming.  The
`usize` bound on the section count reflects Rust's wrapping `len() - 1`. -/
theorem claim_C8 (others : List PfsSection) (info : PfsSection) (d : Bytes)
    (hne : others ≠ []) (hlen : others.length < 18446744073709551616)
    (hds : info.data_size ≠ 0) (hd : info.data = some d) :
    ∃ rest records, pfs_info d = some (rest, records) ∧
      ((min (records.map (fun rec => rec.name)).length others.length =
          others.length - 1 →
        resolveNames (others ++ [info]) =
          some (renameAt (assignNames others (records.map (fun rec => rec.name)))
            (others.length - 1) "Model Properties" ++
            [{ info with name := "Section Info" }])) ∧
       (min (records.map (fun rec => rec.name)).length others.length ≠
          others.length - 1 →
        resolveNames (others ++ [info]) =
          some (assignNames others (records.map (fun rec => rec.name)) ++
            [{ info with name := "Section Info" }]))) := by
  obtain ⟨rest, records, hinfo, _⟩ := pfs_info_some d
  have h1 : 1 ≤ others.length := by
    cases others with
    | nil => exact absurd rfl hne
    | cons a t => simp
  have hsub := usizeSub_one others.length h1 hlen
  refine ⟨rest, records, hinfo, ?_, ?_⟩ <;> intro htrig
  · unfold resolveNames
    simp only [List.getLast?_concat, List.dropLast_concat, if_pos hds, hd, hinfo]
    rw [hsub, if_pos htrig, htrig]
  · unfold resolveNames
    simp only [List.getLast?_concat, List.dropLast_concat, if_pos hds, hd, hinfo]
    rw [hsub, if_neg htrig]

/-- Witness for C8: two data sections and an information payload holding a
single name trigger the "Model Properties" renaming. -/
theorem claim_C8_witness :
    ∃ rest records, pfs_info infoPayload1 = some (rest, records) ∧
      ((min (records.map (fun rec => rec.name)).length [secData1, secData1].length =
          [secData1, secData1].length - 1 →
        resolveNames ([secData1, secData1] ++ [secInfo1]) =
          some (renameAt (assignNames [secData1, secData1]
              (records.map (fun rec => rec.name)))
            ([secData1, secData1].length - 1) "Model Properties" ++
            [{ secInfo1 with name := "Section Info" }])) ∧
       (min (records.map (fun rec => rec.name)).length [secData1, secData1].length ≠
          [secData1, secData1].length - 1 →
        resolveNames ([secData1, secData1] ++ [secInfo1]) =
          some (assignNames [secData1, secData1]
              (records.map (fun rec => rec.name)) ++
            [{ secInfo1 with name := "Section Info" }]))) :=
  claim_C8 [secData1, secData1] secInfo1 infoPayload1 (by decide) (by decide)
    (by decide) (by decide)

/-- **C1 (amended)**: a buffer laid out as well-formed header, `N` well-formed
section records, and a well-formed footer decodes to exactly those `N`
sections with every field as encoded — provided no section's `guid.data4`
equals the footer magic bytes.  (Without that proviso `many_till` recognises
such a guid as the footer and stops early: see the counterexample.) -/
theorem claim_C1 (h : PfsHeader) (ss : List PfsSection) (f : PfsFooter)
    (hh : WFHeader h) (hss : ∀ s ∈ ss, WFSection s)
    (hne : ∀ s ∈ ss, s.guid.data4 ≠ ftrMagic) (hf : WFFooter f) :
    pfs_file (encodeHeader h ++ (ss.map encodeSection).flatten ++ encodeFooter f) =
      some ([], { header := h, sections := ss, footer := f }) :=
  pfs_file_encode h ss f hh hss hne hf

theorem claim_C1_witness :
    pfs_file (encodeHeader hdrA ++ ([secZero].map encodeSection).flatten ++
        encodeFooter ftrA) =
      some ([], { header := hdrA, sections := [secZero], footer := ftrA }) :=
  claim_C1 hdrA [secZero] ftrA (by decide) (by decide) (by decide) (by decide)

/-- **C1 counterexample**: `c1buf` is a well-formed header + one well-formed
section + footer, yet the decoder succeeds with zero sections, because the
section's guid ends in the footer magic and `many_till` stops there. -/
theorem claim_C1_counterexample :
    WFHeader hdrA ∧ WFSection secFtrGuid ∧ WFFooter ftrA ∧
    (pfs_file c1buf).map (fun p => p.2.sections.length) = some 0 := by
  decide

/-- **C2**: a successful `pfs_section` parse yields each blob present exactly
when its size is nonzero, with length equal to that size, and the blobs are
consumed in the order data, data-signature, metadata, metadata-signature
right after the 72 fixed header bytes. -/
theorem claim_C2 (input r : Bytes) (s : PfsSection)
    (h : pfs_section input = some (r, s)) :
    (s.data.isSome ↔ s.data_size ≠ 0) ∧
    (∀ b, s.data = some b → b.length = s.data_size) ∧
    (s.data_sig.isSome ↔ s.data_sig_size ≠ 0) ∧
    (∀ b, s.data_sig = some b → b.length = s.data_sig_size) ∧
    (s.meta.isSome ↔ s.meta_size ≠ 0) ∧
    (∀ b, s.meta = some b → b.length = s.meta_size) ∧
    (s.meta_sig.isSome ↔ s.meta_sig_size ≠ 0) ∧
    (∀ b, s.meta_sig = some b → b.length = s.meta_sig_size) ∧
    ∃ pre : Bytes, pre.length = 72 ∧
      input = pre ++ optBytes s.data ++ optBytes s.data_sig ++
        optBytes s.meta ++ optBytes s.meta_sig ++ r := by
  obtain ⟨h1, h2, h3, h4, hseg⟩ := pfs_section_blobs h
  exact ⟨blobWF_none_iff h1, blobWF_length h1, blobWF_none_iff h2,
    blobWF_length h2, blobWF_none_iff h3, blobWF_length h3,
    blobWF_none_iff h4, blobWF_length h4, hseg⟩

theorem claim_C2_witness :
    (c2sec.data.isSome ↔ c2sec.data_size ≠ 0) ∧
    (∀ b, c2sec.data = some b → b.length = c2sec.data_size) ∧
    (c2sec.data_sig.isSome ↔ c2sec.data_sig_size ≠ 0) ∧
    (∀ b, c2sec.data_sig = some b → b.length = c2sec.data_sig_size) ∧
    (c2sec.meta.isSome ↔ c2sec.meta_size ≠ 0) ∧
    (∀ b, c2sec.meta = some b → b.length = c2sec.meta_size) ∧
    (c2sec.meta_sig.isSome ↔ c2sec.meta_sig_size ≠ 0) ∧
    (∀ b, c2sec.meta_sig = some b → b.length = c2sec.meta_sig_size) ∧
    ∃ pre : Bytes, pre.length = 72 ∧
      c2buf = pre ++ optBytes c2sec.data ++ optBytes c2sec.data_sig ++
        optBytes c2sec.meta ++ optBytes c2sec.meta_sig ++ [] :=
  claim_C2 c2buf [] c2sec (by decide)

/-- **C5 (amended)**: a buffer that decodes to a container with zero sections
is accepted by the decoder, but the extraction pipeline then panics during
metadata resolution (`split_last_mut().unwrap()` on an empty section list),
so it aborts and produces no artifacts. -/
theorem claim_C5 (inflate : Bytes → Option Bytes) (fuel : Nat) (data : Bytes)
    (pfx : String) (r : Bytes) (f : PfsFile)
    (h : pfs_file data = some (r, f)) (hs : f.sections = []) :
    pfs_extract inflate (fuel + 1) data pfx = none := by
  simp only [pfs_extract, h, hs]
  rfl

theorem claim_C5_witness :
    pfs_file emptyBuf =
      some ([], { header := hdrA, sections := [], footer := ftrA }) ∧
    pfs_extract noInflate (4 + 1) emptyBuf "" = none :=
  ⟨by decide, claim_C5 noInflate 4 emptyBuf "" []
    { header := hdrA, sections := [], footer := ftrA } (by decide) (by decide)⟩

/-- **C5 counterexample**: on a header-plus-footer buffer the decoder
succeeds with zero sections, yet the pipeline result is a panic (`none`),
not a clean run without artifacts as the claim states. -/
theorem claim_C5_counterexample :
    pfs_file emptyBuf =
      some ([], { header := hdrA, sections := [], footer := ftrA }) ∧
    pfs_extract noInflate 5 emptyBuf "" = none := by
  decide

/-- **C6 (code bug)**: a section whose payload is a nested container holding
a zero-size section aborts the run.  Attempt (a) fails and attempt (b)
parses the nested container, but the chunk loop's zero-size guard tests the
*outer* section's data size, so the inner `chunk.data.unwrap()` panics
instead of falling through. -/
theorem claim_C6_panic :
    pfs_compressed_section nestedZeroBuf = none ∧
    (pfs_file nestedZeroBuf).isSome ∧
    collectChunks secNestedZero.data_size [secZero] = ChunkResult.panic ∧
    extractSection noInflate (fun _ _ => some []) 1 secNestedZero "" = none := by
  decide

/-- **C10**: `pfs_info` succeeds on every input, yielding the longest prefix
of well-formed records (no further record parses at the remainder), so the
resolver's decode-failure fallback is unreachable via a `pfs_info` error. -/
theorem claim_C10 (input : Bytes) :
    ∃ r v, pfs_info input = some (r, v) ∧ pfs_info_section r = none :=
  pfs_info_some input

/-- **C3**: the version string scans tag/number pairs in lockstep — 0x41
appends the number in uppercase hex plus a dot, 0x4E in decimal plus a dot,
0x20 or 0x00 stops keeping the accumulator, any other tag stops discarding
everything — and an empty scan result falls back to "0."; in particular
tags [0x41, 0x4E, 0x20, 0x00] with numbers [2, 5, _, _] render "2.5.". -/
theorem claim_C3 :
    (∀ (x : Nat) (ts : List (Nat × Nat)) (acc : String),
      versionScan ((0x41, x) :: ts) acc =
        versionScan ts (acc ++ toHexUpper x ++ ".")) ∧
    (∀ (x : Nat) (ts : List (Nat × Nat)) (acc : String),
      versionScan ((0x4E, x) :: ts) acc =
        versionScan ts (acc ++ Nat.repr x ++ ".")) ∧
    (∀ (x : Nat) (ts : List (Nat × Nat)) (acc : String),
      versionScan ((0x20, x) :: ts) acc = acc) ∧
    (∀ (x : Nat) (ts : List (Nat × Nat)) (acc : String),
      versionScan ((0x00, x) :: ts) acc = acc) ∧
    (∀ (t x : Nat) (ts : List (Nat × Nat)) (acc : String),
      t ≠ 0x41 → t ≠ 0x4E → t ≠ 0x20 → t ≠ 0x00 →
      versionScan ((t, x) :: ts) acc = "") ∧
    (∀ vt v : List Nat,
      versionScan (vt.zip v) "" = "" → versionString vt v = "0.") ∧
    (∀ a b : Nat, versionString [0x41, 0x4E, 0x20, 0x00] [2, 5, a, b] = "2.5.") := by
  refine ⟨versionScan_hex, versionScan_dec,
    fun x ts acc => versionScan_stop _ x ts acc (Or.inl rfl),
    fun x ts acc => versionScan_stop _ x ts acc (Or.inr rfl),
    versionScan_unknown_tag, ?_, ?_⟩
  · intro vt v hscan
    simp [versionString, hscan]
  · intro a b
    rfl

theorem claim_C3_witness :
    versionScan [(0x42, 7)] "X." = "" ∧
    versionString [0x42, 0, 0, 0] [1, 2, 3, 4] = "0." := by
  refine ⟨claim_C3.2.2.2.2.1 0x42 7 [] "X."
    (by decide) (by decide) (by decide) (by decide), ?_⟩
  exact claim_C3.2.2.2.2.2.1 [0x42, 0, 0, 0] [1, 2, 3, 4] (by decide)

/-- **C9 (amended)**: a version-type byte outside {0x41, 0x4E, 0x20, 0x00}
yields the fallback "0." provided every byte before it is 0x41 or 0x4E, so
that the scan actually reaches it.  (A 0x20/0x00 terminator before the bad
byte keeps the accumulated prefix instead: see the counterexample.) -/
theorem claim_C9 (pre : List Nat) (t : Nat) (suf v : List Nat)
    (hpre : ∀ x ∈ pre, x = 0x41 ∨ x = 0x4E)
    (hlen : pre.length < v.length)
    (ht : t ∉ [0x41, 0x4E, 0x20, 0x00]) :
    versionString (pre ++ t :: suf) v = "0." := by
  have ht4 : t ≠ 0x41 ∧ t ≠ 0x4E ∧ t ≠ 0x20 ∧ t ≠ 0x00 := by simpa using ht
  unfold versionString
  rw [versionScan_hits_unknown pre t suf v "" hpre hlen ht4]
  rfl

/-- **C9 counterexample**: a version-type array containing a byte outside
the allowed set can still produce a non-fallback version when a terminator
byte precedes the unknown byte. -/
theorem claim_C9_counterexample :
    (0x99 ∈ [0x41, 0x00, 0x99, 0x00]) ∧ 0x99 ∉ [0x41, 0x4E, 0x20, 0x00] ∧
    versionString [0x41, 0x00, 0x99, 0x00] [2, 0, 0, 0] = "2." ∧
    versionString [0x41, 0x00, 0x99, 0x00] [2, 0, 0, 0] ≠ "0." := by
  decide

theorem claim_C9_witness :
    versionString ([0x41] ++ 0x99 :: [0x4E, 0x00]) [2, 0, 0, 0] = "0." :=
  claim_C9 [0x41] 0x99 [0x4E, 0x00] [2, 0, 0, 0] (by decide) (by decide)
    (by decide)

/-- **C4 (amended)**: when a section's payload parses as a nested container
whose sections' data all decode as chunks, at least one chunk results (and
the section's blobs satisfy the parser invariant of C2), the extraction
emits one "data.payload" artifact holding the concatenation of the chunk
payloads in stable ascending order-number order; chunks with order numbers
[3, 1, 2] and payloads "C", "A", "B" reassemble to "ABC".  (A nested
container with zero sections emits no payload artifact at all: see the
counterexample.) -/
theorem claim_C4 (inflate : Bytes → Option Bytes)
    (recurse : Bytes → String → Option (List Artifact))
    (i : Nat) (pfx : String) (s : PfsSection) (sd rest : Bytes) (sub : PfsFile)
    (chunks : List PfsChunk)
    (hds : s.data_size ≠ 0) (hdata : s.data = some sd)
    (hsig : blobWF s.data_sig_size s.data_sig)
    (hmeta : blobWF s.meta_size s.meta)
    (hmsig : blobWF s.meta_sig_size s.meta_sig)
    (hsub : pfs_file sd = some (rest, sub))
    (hchunks : List.Forall₂ (fun (sec : PfsSection) (ch : PfsChunk) =>
      ∃ d r2, sec.data = some d ∧ pfs_chunk d = some (r2, ch)) sub.sections chunks)
    (hne : chunks ≠ []) :
    (∃ written : List Artifact,
      extractSection inflate recurse i s pfx =
        some (written ++
          [(pfx ++ sectionFileName i s.name ++ "_" ++
              versionString s.version_type s.version ++ "data.payload",
            subPayload chunks)])) ∧
    subPayload chunks = ((sortChunks chunks).map PfsChunk.data).flatten ∧
    (sortChunks chunks).Perm chunks ∧
    List.Pairwise chunkLe (sortChunks chunks) ∧
    subPayload [⟨3, [0x43]⟩, ⟨1, [0x41]⟩, ⟨2, [0x42]⟩] = [0x41, 0x42, 0x43] := by
  refine ⟨?_, rfl, List.perm_insertionSort _ _,
    List.sorted_insertionSort _ _, by decide⟩
  obtain ⟨a1, ha1⟩ := blobArt_wf hsig
    (pfx ++ sectionFileName i s.name ++ "_" ++
      versionString s.version_type s.version ++ "data.sig")
  obtain ⟨a2, ha2⟩ := blobArt_wf hmeta
    (pfx ++ sectionFileName i s.name ++ "_" ++
      versionString s.version_type s.version ++ "meta")
  obtain ⟨a3, ha3⟩ := blobArt_wf hmsig
    (pfx ++ sectionFileName i s.name ++ "_" ++
      versionString s.version_type s.version ++ "meta.sig")
  refine ⟨[(pfx ++ sectionFileName i s.name ++ "_" ++
    versionString s.version_type s.version ++ "data", sd)] ++ a1 ++ a2 ++ a3, ?_⟩
  simp only [extractSection, if_neg hds, hdata, ha1, ha2, ha3,
    pfs_file_not_compressed hsub, hsub, collectChunks_ok hds hchunks,
    if_pos (List.length_pos.mpr hne)]

set_option maxRecDepth 4000 in
/-- Witness for C4: a concrete nested container with chunks ordered 3, 1, 2
and payloads "C", "A", "B". -/
theorem claim_C4_witness :
    (∃ written : List Artifact,
      extractSection noInflate (fun _ _ => some []) 1 secChunks "" =
        some (written ++
          [("" ++ sectionFileName 1 secChunks.name ++ "_" ++
              versionString secChunks.version_type secChunks.version ++
              "data.payload",
            subPayload [⟨3, [0x43]⟩, ⟨1, [0x41]⟩, ⟨2, [0x42]⟩])])) ∧
    subPayload [⟨3, [0x43]⟩, ⟨1, [0x41]⟩, ⟨2, [0x42]⟩] =
      ((sortChunks [⟨3, [0x43]⟩, ⟨1, [0x41]⟩, ⟨2, [0x42]⟩]).map
        PfsChunk.data).flatten ∧
    (sortChunks [⟨3, [0x43]⟩, ⟨1, [0x41]⟩, ⟨2, [0x42]⟩]).Perm
      [⟨3, [0x43]⟩, ⟨1, [0x41]⟩, ⟨2, [0x42]⟩] ∧
    List.Pairwise chunkLe (sortChunks [⟨3, [0x43]⟩, ⟨1, [0x41]⟩, ⟨2, [0x42]⟩]) ∧
    subPayload [⟨3, [0x43]⟩, ⟨1, [0x41]⟩, ⟨2, [0x42]⟩] = [0x41, 0x42, 0x43] := by
  have hsub : pfs_file chunksBuf = some ([], subFile) := by
    have he := pfs_file_encode hdrA
      [withData chunkC, withData chunkA, withData chunkB] ftrA
      (by decide) (by intro s hs; fin_cases hs <;> decide)
      (by intro s hs; fin_cases hs <;> decide)
      (by decide)
    rw [show chunksBuf = encodeHeader hdrA ++
      (([withData chunkC, withData chunkA, withData chunkB]).map
        encodeSection).flatten ++ encodeFooter ftrA from by
      simp [chunksBuf, List.append_assoc]]
    exact he
  exact claim_C4 noInflate (fun _ _ => some []) 1 "" secChunks chunksBuf []
    subFile [⟨3, [0x43]⟩, ⟨1, [0x41]⟩, ⟨2, [0x42]⟩]
    (by simp [secChunks, withData, chunksBuf, encodeHeader, hdrMagic])
    rfl (by decide) (by decide) (by decide) hsub
    (List.Forall₂.cons ⟨chunkC, [], rfl, by decide⟩
      (List.Forall₂.cons ⟨chunkA, [], rfl, by decide⟩
        (List.Forall₂.cons ⟨chunkB, [], rfl, by decide⟩ List.Forall₂.nil)))
    (by decide)

/-- **C4 counterexample**: a payload that parses as a container with *zero*
sections satisfies "every section's data decodes as a chunk" vacuously, yet
no "data.payload" artifact is emitted (the code writes the payload only
when the chunk list is nonempty). -/
theorem claim_C4_counterexample :
    pfs_file emptyBuf =
      some ([], { header := hdrA, sections := [], footer := ftrA }) ∧
    extractSection noInflate (fun _ _ => some []) 1 (withData emptyBuf) "" =
      some [("section_1_0.data", emptyBuf)] := by
  decide
